import Mathlib

/-!
Verification of the Gomoku Alpha-Beta engine (`gomoku-ai.js`).

The engine is shallowly embedded: JS numbers that only ever hold finite
values are modelled as `ℚ` (the literal `0.8` and the weights are exact
rationals), JS `Infinity`/`-Infinity` as the two extra points of `ExtQ`,
the 15×15 board as a total function `ℕ → ℕ → ℕ` (cell values 0 = empty,
1 = black, 2 = white; every access the source makes is bounds-checked,
so cells outside the grid are never read), in-place board mutation as
explicit state passing (each function returns the board it leaves
behind), and the instance counters `searchNodes`/`pruningCount` as
explicit counts returned by each call (the caller sums them, which
yields the same totals as the source's in-place `++`).
Pattern strings over the JS alphabet {'0','1','2','x'} are modelled as
`List ℕ` with 0 = empty, 1 = own stone, 2 = foe/boundary, 3 = the
neutralised marker 'x'.
-/

namespace Gomoku

/-- Extended rationals: the value space of the JS search scores, where
`alpha`/`beta` are seeded with `-Infinity`/`Infinity`. -/
inductive ExtQ where
  | ninf : ExtQ
  | fin (q : ℚ) : ExtQ
  | pinf : ExtQ
deriving DecidableEq

namespace ExtQ

/-- Order-preserving injection into `WithBot (WithTop ℚ)`, used to lift
the linear order. -/
def toW : ExtQ → WithBot (WithTop ℚ)
  | ninf => ⊥
  | fin q => ((q : WithTop ℚ) : WithBot (WithTop ℚ))
  | pinf => ((⊤ : WithTop ℚ) : WithBot (WithTop ℚ))

theorem toW_injective : Function.Injective toW := by
  intro a b h
  cases a <;> cases b <;> simp_all [toW]

instance : LinearOrder ExtQ := LinearOrder.lift' toW toW_injective

instance : DecidableRel (· ≤ · : ExtQ → ExtQ → Prop) := fun a b =>
  decidable_of_iff (toW a ≤ toW b) Iff.rfl

instance : DecidableRel (· < · : ExtQ → ExtQ → Prop) := fun a b =>
  decidable_of_iff (toW a < toW b) Iff.rfl

theorem le_def {a b : ExtQ} : a ≤ b ↔ toW a ≤ toW b := Iff.rfl

theorem lt_def {a b : ExtQ} : a < b ↔ toW a < toW b := Iff.rfl

/-- JS unary minus on an extended score. -/
def neg : ExtQ → ExtQ
  | ninf => pinf
  | fin q => fin (-q)
  | pinf => ninf

@[simp] theorem neg_neg (a : ExtQ) : a.neg.neg = a := by
  cases a <;> simp [neg]

@[simp] theorem neg_ninf : neg ninf = pinf := rfl
@[simp] theorem neg_pinf : neg pinf = ninf := rfl
@[simp] theorem neg_fin (q : ℚ) : neg (fin q) = fin (-q) := rfl

@[simp] theorem ninf_le (a : ExtQ) : ninf ≤ a := by
  cases a <;> simp [le_def, toW]

@[simp] theorem le_pinf (a : ExtQ) : a ≤ pinf := by
  cases a <;> simp [le_def, toW]

@[simp] theorem fin_le_fin {p q : ℚ} : fin p ≤ fin q ↔ p ≤ q := by
  simp [le_def, toW]

@[simp] theorem fin_lt_fin {p q : ℚ} : fin p < fin q ↔ p < q := by
  simp [lt_def, toW]

@[simp] theorem ninf_lt_fin (q : ℚ) : ninf < fin q := by
  simp [lt_def, toW]

@[simp] theorem fin_lt_pinf (q : ℚ) : fin q < pinf :=
  lt_def.mpr (WithBot.coe_lt_coe.mpr (WithTop.coe_lt_top q))

@[simp] theorem ninf_lt_pinf : ninf < pinf := by
  simp [lt_def, toW]

@[simp] theorem not_pinf_le_fin (q : ℚ) : ¬ (pinf ≤ fin q) := by
  simp [le_def, toW]

@[simp] theorem not_fin_le_ninf (q : ℚ) : ¬ (fin q ≤ ninf) := by
  simp [le_def, toW]

@[simp] theorem not_pinf_le_ninf : ¬ (pinf ≤ ninf) := by
  simp [le_def, toW]

@[simp] theorem not_lt_ninf (a : ExtQ) : ¬ (a < ninf) := not_lt.mpr (ninf_le a)

@[simp] theorem not_pinf_lt (a : ExtQ) : ¬ (pinf < a) := not_lt.mpr (le_pinf a)

theorem eneg_le_eneg {a b : ExtQ} : a.neg ≤ b.neg ↔ b ≤ a := by
  cases a <;> cases b <;> simp [neg, neg_le_neg_iff]

theorem eneg_lt_eneg {a b : ExtQ} : a.neg < b.neg ↔ b < a := by
  cases a <;> cases b <;> simp [neg, neg_lt_neg_iff]

theorem eneg_max (a b : ExtQ) : (max a b).neg = min a.neg b.neg := by
  rcases le_total a b with h | h
  · rw [max_eq_right h, min_eq_right (eneg_le_eneg.mpr h)]
  · rw [max_eq_left h, min_eq_left (eneg_le_eneg.mpr h)]

theorem eneg_min (a b : ExtQ) : (min a b).neg = max a.neg b.neg := by
  rcases le_total a b with h | h
  · rw [min_eq_left h, max_eq_left (eneg_le_eneg.mpr h)]
  · rw [min_eq_right h, max_eq_right (eneg_le_eneg.mpr h)]

end ExtQ

/-! ## Board model -/

/-- Board size: the source fixes `boardSize = 15`. -/
def boardSize : ℕ := 15

/-- A board is a total assignment of cell values; the source only ever
reads coordinates inside `[0, 15) × [0, 15)`. -/
def Board := ℕ → ℕ → ℕ

/-- `board[row][col] = v` — pointwise functional update. -/
def setCell (b : Board) (row col v : ℕ) : Board :=
  fun r c => if r = row ∧ c = col then v else b r c

/-- The completely empty board. -/
def emptyBoard : Board := fun _ _ => 0

@[simp] theorem setCell_same (b : Board) (row col v : ℕ) :
    setCell b row col v row col = v := by
  simp [setCell]

/-- Placing a stone on an empty cell and clearing it again restores the
board exactly (this is the undo discipline of the source). -/
theorem setCell_setCell_zero {b : Board} {row col : ℕ} (h : b row col = 0)
    (v : ℕ) : setCell (setCell b row col v) row col 0 = b := by
  funext r c
  by_cases hrc : r = row ∧ c = col
  · obtain ⟨h1, h2⟩ := hrc
    subst h1; subst h2
    simp [setCell, h]
  · simp [setCell, hrc]

/-- Whichever value the recursive call writes and then erases at the same
cell, the write of `0` wins; only the original value of that cell matters. -/
theorem setCell_eq_of_outer {b b' : Board} {row col v : ℕ}
    (h : setCell b row col v = setCell b' row col v) :
    ∀ r c, ¬(r = row ∧ c = col) → b r c = b' r c := by
  intro r c hrc
  have := congrFun (congrFun h r) c
  simpa [setCell, hrc] using this

/-! ## Settings and pattern weights -/

/-- The `patternWeights` table (all keys the engine reads). -/
structure PatternWeights where
  liveFive : ℚ
  liveFour : ℚ
  deadFour : ℚ
  liveThree : ℚ
  deadThree : ℚ
  liveTwo : ℚ
  deadTwo : ℚ
  opponentThreat : ℚ
deriving DecidableEq

/-- Defaults from the `GomokuAI` constructor. -/
def defaultPatternWeights : PatternWeights :=
  { liveFive := 100000
    liveFour := 5000
    deadFour := 400
    liveThree := 400
    deadThree := 20
    liveTwo := 10
    deadTwo := 5
    opponentThreat := -0.8 }

/-- Effective engine settings during one search (`this.settings` with
`boardSize` fixed at 15, as at every call site in the repository). -/
structure EngineSettings where
  searchDepth : ℕ
  candidateCount : ℕ
  searchRange : ℕ
  weights : PatternWeights

/-! ## Pattern table and regex-style matching

The six `this.patterns` rules, each an ordered alternation of literal
words over the line alphabet (0 = empty, 1 = own, 2 = foe/boundary). -/

/-- The ordered rule table from the constructor, literal by literal. -/
def patternAlts : List (List (List ℕ) × (PatternWeights → ℚ)) :=
  [ ([[1,1,1,1,1]], fun w => w.liveFive),
    ([[0,1,1,1,1,0]], fun w => w.liveFour),
    ([[0,1,1,1,1,2], [2,1,1,1,1,0], [1,0,1,1,1], [1,1,0,1,1], [1,1,1,0,1]],
      fun w => w.deadFour),
    ([[0,1,1,1,0], [0,1,0,1,1,0], [0,1,1,0,1,0]], fun w => w.liveThree),
    ([[0,0,1,1,1,2], [2,1,1,1,0,0], [0,1,0,1,1,2], [2,1,1,0,1,0],
      [0,1,1,0,1,2], [2,1,0,1,1,0], [1,0,0,1,1], [1,1,0,0,1], [1,0,1,0,1]],
      fun w => w.deadThree),
    ([[0,0,1,1,0,0], [0,1,1,0,0], [0,0,1,1,0], [0,1,0,1,0], [0,1,0,0,1,0]],
      fun w => w.liveTwo) ]

/-- First alternative (in listed order) matching at the head of `s` —
JS regex alternation semantics at one position. -/
def matchAltsHere (alts : List (List ℕ)) (s : List ℕ) : Option (List ℕ) :=
  alts.find? (fun a => a.isPrefixOf s)

/-- Leftmost match of the alternation in `s` (JS `String.match`),
returned as (text before the match, matched word, text after). -/
def findFirstMatch (alts : List (List ℕ)) : List ℕ → Option (List ℕ × List ℕ × List ℕ)
  | [] =>
    match matchAltsHere alts [] with
    | some a => some ([], a, [])
    | none => none
  | c :: rest =>
    match matchAltsHere alts (c :: rest) with
    | some a => some ([], a, (c :: rest).drop a.length)
    | none => (findFirstMatch alts rest).map (fun pms => (c :: pms.1, pms.2.1, pms.2.2))

/-- `matchedPart.replace(/1/g, 'x')`: own stones become the neutral
marker 3. -/
def neutralize (l : List ℕ) : List ℕ := l.map (fun c => if c = 1 then 3 else c)

/-- Number of own-stone symbols in a working string. -/
def onesCount (s : List ℕ) : ℕ := s.countP (· == 1)

theorem onesCount_append (s t : List ℕ) :
    onesCount (s ++ t) = onesCount s + onesCount t := by
  simp [onesCount, List.countP_append]

@[simp] theorem onesCount_neutralize (l : List ℕ) : onesCount (neutralize l) = 0 := by
  simp only [onesCount, neutralize, List.countP_eq_zero]
  intro x hx
  rcases List.mem_map.mp hx with ⟨c, _, rfl⟩
  by_cases h : c = 1 <;> simp [h]

theorem matchAltsHere_eq_some {alts : List (List ℕ)} {s a : List ℕ}
    (h : matchAltsHere alts s = some a) : a <+: s ∧ a ∈ alts := by
  have h1 := List.find?_some h
  have h2 := List.mem_of_find?_eq_some h
  exact ⟨List.isPrefixOf_iff_prefix.mp h1, h2⟩

/-- A successful match decomposes the string around the matched word. -/
theorem findFirstMatch_eq_some (alts : List (List ℕ)) :
    ∀ (s pre m suf : List ℕ),
      findFirstMatch alts s = some (pre, m, suf) →
      s = pre ++ m ++ suf ∧ m ∈ alts
  | [], pre, m, suf => by
    intro h
    simp only [findFirstMatch] at h
    cases hm : matchAltsHere alts [] with
    | none => rw [hm] at h; cases h
    | some a =>
      rw [hm] at h
      obtain ⟨ha, hmem⟩ := matchAltsHere_eq_some hm
      simp only [Option.some.injEq, Prod.mk.injEq] at h
      obtain ⟨h1, h2, h3⟩ := h
      subst h1; subst h2; subst h3
      have ha0 : a = [] := List.prefix_nil.mp ha
      subst ha0
      exact ⟨rfl, hmem⟩
  | c :: rest, pre, m, suf => by
    intro h
    simp only [findFirstMatch] at h
    cases hm : matchAltsHere alts (c :: rest) with
    | some a =>
      rw [hm] at h
      obtain ⟨ha, hmem⟩ := matchAltsHere_eq_some hm
      simp only [Option.some.injEq, Prod.mk.injEq] at h
      obtain ⟨h1, h2, h3⟩ := h
      subst h1; subst h2; subst h3
      refine ⟨?_, hmem⟩
      simpa using (List.prefix_iff_eq_append.mp ha).symm
    | none =>
      rw [hm] at h
      cases hrec : findFirstMatch alts rest with
      | none => rw [hrec] at h; cases h
      | some pms =>
        rw [hrec] at h
        obtain ⟨pre', m', suf'⟩ := pms
        simp only [Option.map_some', Option.some.injEq, Prod.mk.injEq] at h
        obtain ⟨h1, h2, h3⟩ := h
        subst h1; subst h2; subst h3
        obtain ⟨heq, hmem⟩ := findFirstMatch_eq_some alts rest pre' m' suf' hrec
        refine ⟨?_, hmem⟩
        simp [heq]

/-- One rule of `calculateLineScore`: the source's `while (true)` loop —
find the first match in the working copy, add the rule's weight,
neutralise the matched word's own stones, repeat. Structural fuel
recursion (kernel-reducible): every alternative of the source's rule
table contains a `1`, so each round strictly decreases `onesCount` and
at `onesCount = 0` nothing matches any more; hence with the starting
fuel `onesCount s + 1` of `ruleScore` the `0`-fuel arm is unreachable
(on a `1`-free alternative the source itself would loop forever,
replacing nothing). -/
def ruleScoreFuel (alts : List (List ℕ)) (weight : ℚ) : ℕ → List ℕ → ℚ
  | 0, _ => 0
  | fuel + 1, s =>
    match findFirstMatch alts s with
    | none => 0
    | some (pre, m, suf) =>
      weight + ruleScoreFuel alts weight fuel (pre ++ neutralize m ++ suf)

/-- The score one rule contributes to a line. -/
def ruleScore (alts : List (List ℕ)) (weight : ℚ) (s : List ℕ) : ℚ :=
  ruleScoreFuel alts weight (onesCount s + 1) s

/-- `calculateLineScore`: fold the ordered rule table over the encoded
line. Each rule restarts from the original `lineStr` (the source resets
`tempStr = lineStr` per rule); the outer `lineStr.match` existence test
of the source is redundant, since the while loop exits at once when
there is no match. -/
def calculateLineScore (w : PatternWeights) (lineStr : List ℕ) : ℚ :=
  patternAlts.foldl (fun score p => score + ruleScore p.1 (p.2 w) lineStr) 0

/-! ## Line encoders -/

/-- In-grid test for signed coordinates. -/
def inB (r c : ℤ) : Prop := 0 ≤ r ∧ r < 15 ∧ 0 ≤ c ∧ c < 15

instance (r c : ℤ) : Decidable (inB r c) := by unfold inB; infer_instance

/-- Read a cell at signed coordinates (only ever used under `inB`). -/
def cellZ (b : Board) (r c : ℤ) : ℕ := b r.toNat c.toNat

/-- The symbol a cell contributes to a line for `player`. -/
def cellSym (player v : ℕ) : ℕ := if v = player then 1 else if v = 0 then 0 else 2

/-- The offsets scanned by `getLineString`: the source starts from
`minK = -4`/`maxK = 4` and moves each inward while the corresponding
endpoint is off the board (the surviving offsets of `[-4,4]` form a
contiguous block around `k = 0`, which is always on the board at the
call sites; `getD 0` is the unreachable fallback). -/
def lineKs (r c dr dc : ℤ) : List ℤ :=
  let ks : List ℤ := (List.range 9).map (fun i => (i : ℤ) - 4)
  let minK := (ks.find? (fun k => decide (inB (r + k * dr) (c + k * dc)))).getD 0
  let maxK := ((ks.reverse.find? (fun k => decide (inB (r + k * dr) (c + k * dc)))).getD 0)
  ks.filter (fun k => decide (minK ≤ k) && decide (k ≤ maxK))

/-- `getLineString`: the radius-4 neighbourhood of `(r, c)` along
direction `(dr, dc)`, encoded for `player`, with boundary symbol `2`
appended at both ends. -/
def getLineString (b : Board) (r c : ℕ) (dr dc : ℤ) (player : ℕ)
    (forceCenterAsPlayer : Bool) : List ℕ :=
  2 :: ((lineKs r c dr dc).map (fun k =>
    if k = 0 ∧ forceCenterAsPlayer then 1
    else cellSym player (cellZ b ((r : ℤ) + k * dr) ((c : ℤ) + k * dc)))) ++ [2]

/-- `getRowString`. -/
def getRowString (b : Board) (row player : ℕ) : List ℕ :=
  2 :: ((List.range 15).map (fun col => cellSym player (b row col))) ++ [2]

/-- `getColString`. -/
def getColString (b : Board) (col player : ℕ) : List ℕ :=
  2 :: ((List.range 15).map (fun row => cellSym player (b row col))) ++ [2]

/-- One main (top-left to bottom-right) diagonal, `k = row - col`. -/
def diagMainString (b : Board) (player : ℕ) (k : ℤ) : List ℕ :=
  2 :: ((List.range 15).filterMap (fun (row : ℕ) =>
    let col : ℤ := (row : ℤ) - k
    if 0 ≤ col ∧ col < 15 then some (cellSym player (b row col.toNat)) else none)) ++ [2]

/-- One anti (bottom-left to top-right) diagonal, `k = row + col`. -/
def diagAntiString (b : Board) (player : ℕ) (k : ℤ) : List ℕ :=
  2 :: ((List.range 15).filterMap (fun (row : ℕ) =>
    let col : ℤ := k - (row : ℤ)
    if 0 ≤ col ∧ col < 15 then some (cellSym player (b row col.toNat)) else none)) ++ [2]

/-- `getAllDiagonals`: main diagonals for `k ∈ [-10, 10]`, then anti
diagonals for `k ∈ [4, 24]` — only lines of length ≥ 5. -/
def getAllDiagonals (b : Board) (player : ℕ) : List (List ℕ) :=
  ((List.range 21).map (fun i => diagMainString b player ((i : ℤ) - 10)))
    ++ ((List.range 21).map (fun i => diagAntiString b player ((i : ℤ) + 4)))

/-! ## Evaluators -/

/-- `evaluatePatternsForPlayer`: all rows, then all columns, then every
diagonal. -/
def evaluatePatternsForPlayer (w : PatternWeights) (b : Board) (player : ℕ) : ℚ :=
  ((List.range 15).map (fun i => calculateLineScore w (getRowString b i player))).sum
    + ((List.range 15).map (fun i => calculateLineScore w (getColString b i player))).sum
    + ((getAllDiagonals b player).map (calculateLineScore w)).sum

/-- `evaluateBoard`: own pattern score minus the opponent's pattern
score scaled by `patternWeights.opponentThreat`. Reads only — no board
mutation in the source, hence a pure function here. -/
def evaluateBoard (w : PatternWeights) (b : Board) (player : ℕ) : ℚ :=
  evaluatePatternsForPlayer w b player
    - evaluatePatternsForPlayer w b (3 - player) * w.opponentThreat

/-- The four scan directions. -/
def directions : List (ℤ × ℤ) := [(0, 1), (1, 0), (1, 1), (1, -1)]

/-- `quickEvaluatePosition`, with the board mutation made explicit: the
returned board is the input board after `board[row][col] = player` and
then `board[row][col] = 0`. The source adds the own-line score of each
direction, then adds each direction's opponent-line score (centre forced
to the opponent) times the literal `0.8`; summing the per-direction
terms in one pass is the same arithmetic. -/
def quickEvaluatePositionS (w : PatternWeights) (b : Board) (row col player : ℕ) :
    ℚ × Board :=
  let b1 := setCell b row col player
  let own := (directions.map (fun d =>
    calculateLineScore w (getLineString b1 row col d.1 d.2 player false))).sum
  let opp := (directions.map (fun d =>
    calculateLineScore w (getLineString b1 row col d.1 d.2 (3 - player) true) * 0.8)).sum
  (own + opp, setCell b1 row col 0)

/-! ## Candidate generation -/

/-- `hasNearbyPieces`: true when some cell within Chebyshev distance
`range` (clamped to the grid) is occupied. Nat subtraction is exactly
the source's `Math.max(0, …)` clamp. -/
def hasNearbyPieces (b : Board) (row col range : ℕ) : Bool :=
  let startRow := row - range
  let endRow := min 14 (row + range)
  let startCol := col - range
  let endCol := min 14 (col + range)
  (List.range (endRow + 1 - startRow)).any (fun i =>
    (List.range (endCol + 1 - startCol)).any (fun j =>
      b (startRow + i) (startCol + j) != 0))

/-- The row-major scan order of the source's nested `for` loops. -/
def gridCells : List (ℕ × ℕ) :=
  (List.range 15).flatMap (fun row => (List.range 15).map (fun col => (row, col)))

/-- `generateCandidateMoves`: keep the empty cells with a nearby piece
(row-major scan), sort by descending `quickEvaluatePosition` score
(JS `Array.sort` is stable, as is `mergeSort`; each quick evaluation
provably restores the board, so scoring against `b` is exact), then take
the first `candidateCount`. -/
def generateCandidateMoves (S : EngineSettings) (b : Board) (player : ℕ) :
    List (ℕ × ℕ) :=
  let moves := gridCells.filter (fun mv =>
    b mv.1 mv.2 == 0 && hasNearbyPieces b mv.1 mv.2 S.searchRange)
  let score := fun (mv : ℕ × ℕ) => (quickEvaluatePositionS S.weights b mv.1 mv.2 player).1
  (moves.mergeSort (fun x y => decide (score y ≤ score x))).take S.candidateCount

/-! ## Terminal detection -/

/-- The body of the source's forward-scanning `while` loop: length of
the run of `player` stones starting at `(r, c)` in direction
`(dx, dy)`. The source's loop is unbounded but advances one cell per
step, so it stops after at most 14 steps; fuel 15 is never exhausted
from an on-board start. -/
def countFrom (b : Board) (p : ℕ) (dx dy : ℤ) : ℕ → ℤ → ℤ → ℕ
  | 0, _, _ => 0
  | fuel + 1, r, c =>
    if inB r c ∧ cellZ b r c = p then 1 + countFrom b p dx dy fuel (r + dx) (c + dy)
    else 0

/-- `hasFiveInARow`: from every stone of `player`, count forward along
each of the four directions; ≥ 5 in a row anywhere wins. -/
def hasFiveInARow (b : Board) (p : ℕ) : Bool :=
  (List.range 15).any (fun row => (List.range 15).any (fun col =>
    b row col == p && directions.any (fun d =>
      decide (5 ≤ 1 + countFrom b p d.1 d.2 15 ((row : ℤ) + d.1) ((col : ℤ) + d.2)))))

/-- `isBoardFull`. -/
def isBoardFull (b : Board) : Bool :=
  (List.range 15).all (fun row => (List.range 15).all (fun col => b row col != 0))

/-- `checkWinner`: 1 or 2 for a winner (black checked first), 0 for a
draw on a full board, -1 when the game continues. -/
def checkWinner (b : Board) : ℤ :=
  if hasFiveInARow b 1 then 1
  else if hasFiveInARow b 2 then 2
  else if isBoardFull b then 0
  else -1

/-! ## Alpha-Beta search

The board mutation (`board[row][col] = player` … `board[row][col] = 0`)
is threaded explicitly: every function returns the board it leaves
behind. The instance counters are returned as per-call increments and
summed by the caller — the same totals as the source's `this.searchNodes++`
and `this.pruningCount++`. -/

/-- Result of one `alphaBetaSearch` call: score, the board left behind,
and the number of `searchNodes`/`pruningCount` increments the call
performed. -/
structure ABOut where
  score : ExtQ
  board : Board
  nodes : ℕ
  prunes : ℕ

/-- The candidate loop of `alphaBetaSearch`: place the stone, recurse
through `recur` (the depth-smaller search with the window negated and
swapped), undo the stone, fold the running maximum into `maxScore` and
`alpha`, and break — counting one pruning event — as soon as
`alpha >= beta`. -/
def abGo (recur : Board → ExtQ → ExtQ → ABOut) (p : ℕ) (beta : ExtQ) :
    List (ℕ × ℕ) → Board → ExtQ → ExtQ → ABOut
  | [], b, m, _ => ⟨m, b, 0, 0⟩
  | (r, c) :: rest, b, m, a =>
    let res := recur (setCell b r c p) beta.neg a.neg
    let s := res.score.neg
    let b3 := setCell res.board r c 0
    let m' := max m s
    let a' := max a s
    if beta ≤ a' then ⟨m', b3, res.nodes, res.prunes + 1⟩
    else
      let rr := abGo recur p beta rest b3 m' a'
      ⟨rr.score, rr.board, res.nodes + rr.nodes, res.prunes + rr.prunes⟩

/-- `alphaBetaSearch(board, depth, alpha, beta, player)`. Depth 0
returns the heuristic evaluation; otherwise an already-decided game
returns `±(10000 + depth)` (depth-biased), an empty candidate set
returns 0, and otherwise the candidate loop runs with `maxScore`
seeded at `-Infinity`. -/
def alphaBetaS (S : EngineSettings) : ℕ → Board → ExtQ → ExtQ → ℕ → ABOut
  | 0, b, _, _, p => ⟨.fin (evaluateBoard S.weights b p), b, 1, 0⟩
  | d + 1, b, alpha, beta, p =>
    let w := checkWinner b
    if w = (p : ℤ) then ⟨.fin ((10000 : ℚ) + ((d : ℚ) + 1)), b, 1, 0⟩
    else if w = ((3 - p : ℕ) : ℤ) then ⟨.fin (-((10000 : ℚ) + ((d : ℚ) + 1))), b, 1, 0⟩
    else
      let cands := generateCandidateMoves S b p
      if cands.isEmpty then ⟨.fin 0, b, 1, 0⟩
      else
        let res := abGo (fun b' alpha' beta' => alphaBetaS S d b' alpha' beta' (3 - p))
          p beta cands b .ninf alpha
        ⟨res.score, res.board, res.nodes + 1, res.prunes⟩

/-- Result of the root loop in `findBestMove`. -/
structure RootOut where
  move : Option (ℕ × ℕ)
  score : ExtQ
  board : Board
  nodes : ℕ
  prunes : ℕ

/-- The root candidate loop of `findBestMove`: same place/recurse/undo
discipline, `beta` fixed at `Infinity`, no break; a strictly better
score updates `bestMove`, `bestScore` and `alpha` together. -/
def fbGo (recur : Board → ExtQ → ExtQ → ABOut) (p : ℕ) :
    List (ℕ × ℕ) → Board → Option (ℕ × ℕ) → ExtQ → ExtQ → RootOut
  | [], b, bm, bs, _ => ⟨bm, bs, b, 0, 0⟩
  | (r, c) :: rest, b, bm, bs, a =>
    let res := recur (setCell b r c p) ExtQ.pinf.neg a.neg
    let s := res.score.neg
    let b3 := setCell res.board r c 0
    if bs < s then
      let rr := fbGo recur p rest b3 (some (r, c)) s s
      ⟨rr.move, rr.score, rr.board, res.nodes + rr.nodes, res.prunes + rr.prunes⟩
    else
      let rr := fbGo recur p rest b3 bm bs a
      ⟨rr.move, rr.score, rr.board, res.nodes + rr.nodes, res.prunes + rr.prunes⟩

/-- The engine instance's mutable counters. -/
structure EngineState where
  searchNodes : ℕ
  pruningCount : ℕ
deriving DecidableEq

/-- The parts of the source's result object the core computes
(`searchTime` and the log strings are write-only wall-clock/text
artifacts with no influence on the search and are not modelled). -/
structure SearchOut where
  move : Option (ℕ × ℕ)
  score : ExtQ
  searchNodes : ℕ
  pruningCount : ℕ

/-- `findBestMove(board, player)`. `st` is the instance counter state
before the call; the source resets both counters to 0 before doing
anything else, so `st` is never read — the explicit parameter records
exactly that. Returns `none` when the root candidate set is empty,
otherwise the best move of the root loop (over `searchDepth - 1`-deep
subsearches), together with the board left behind and the final
counter state. -/
def findBestMoveS (S : EngineSettings) (_st : EngineState) (b : Board) (p : ℕ) :
    Option SearchOut × Board × EngineState :=
  let cands := generateCandidateMoves S b p
  if cands.isEmpty then (none, b, ⟨0, 0⟩)
  else
    let r := fbGo (fun b' alpha' beta' =>
        alphaBetaS S (S.searchDepth - 1) b' alpha' beta' (3 - p))
      p cands b none .ninf .ninf
    (some ⟨r.move, r.score, r.nodes, r.prunes⟩, r.board, ⟨r.nodes, r.prunes⟩)

/-! ## The exhaustive reference search (spec side of claim C2)

Modelled from the spec: "an exhaustive (non-pruned) negamax search of
the same depth and candidate set". It is `alphaBetaS` with the
alpha/beta window and the beta-cutoff removed, over the same
`generateCandidateMoves`, counting one node per invocation. -/

/-- Exhaustive counterpart of `abGo`: no window, no break. -/
def nGo (recur : Board → ExtQ × ℕ) (p : ℕ) :
    List (ℕ × ℕ) → Board → ExtQ → ExtQ × ℕ
  | [], _, m => (m, 0)
  | (r, c) :: rest, b, m =>
    let res := recur (setCell b r c p)
    let s := res.1.neg
    let rr := nGo recur p rest b (max m s)
    (rr.1, res.2 + rr.2)

/-- Exhaustive counterpart of `alphaBetaS` (true negamax value of the
same depth-limited game tree). -/
def negamax (S : EngineSettings) : ℕ → Board → ℕ → ExtQ × ℕ
  | 0, b, p => (.fin (evaluateBoard S.weights b p), 1)
  | d + 1, b, p =>
    let w := checkWinner b
    if w = (p : ℤ) then (.fin ((10000 : ℚ) + ((d : ℚ) + 1)), 1)
    else if w = ((3 - p : ℕ) : ℤ) then (.fin (-((10000 : ℚ) + ((d : ℚ) + 1))), 1)
    else
      let cands := generateCandidateMoves S b p
      if cands.isEmpty then (.fin 0, 1)
      else
        let res := nGo (fun b' => negamax S d b' (3 - p)) p cands b .ninf
        (res.1, res.2 + 1)

/-- Exhaustive counterpart of the root loop `fbGo`. -/
def fbGoN (recur : Board → ExtQ × ℕ) (p : ℕ) :
    List (ℕ × ℕ) → Board → Option (ℕ × ℕ) → ExtQ →
      Option (ℕ × ℕ) × ExtQ × ℕ
  | [], _, bm, bs => (bm, bs, 0)
  | (r, c) :: rest, b, bm, bs =>
    let res := recur (setCell b r c p)
    let s := res.1.neg
    let rr :=
      if bs < s then fbGoN recur p rest b (some (r, c)) s
      else fbGoN recur p rest b bm bs
    (rr.1, rr.2.1, res.2 + rr.2.2)

/-- Exhaustive counterpart of `findBestMoveS`: best move, best score and
node count of the non-pruned search over the same candidates. -/
def findBestMoveExhaustive (S : EngineSettings) (b : Board) (p : ℕ) :
    Option (Option (ℕ × ℕ) × ExtQ × ℕ) :=
  let cands := generateCandidateMoves S b p
  if cands.isEmpty then none
  else some (fbGoN (fun b' => negamax S (S.searchDepth - 1) b' (3 - p)) p cands b none .ninf)

/-! ## The constructor (`new GomokuAI(settings)`) -/

/-- A caller-supplied `patternWeights` object: any key may be absent. -/
structure PatternWeightsIn where
  liveFive : Option ℚ
  liveFour : Option ℚ
  deadFour : Option ℚ
  liveThree : Option ℚ
  deadThree : Option ℚ
  liveTwo : Option ℚ
  deadTwo : Option ℚ
  opponentThreat : Option ℚ
deriving DecidableEq

/-- The default table, with every key present. -/
def defaultPatternWeightsIn : PatternWeightsIn :=
  { liveFive := some 100000
    liveFour := some 5000
    deadFour := some 400
    liveThree := some 400
    deadThree := some 20
    liveTwo := some 10
    deadTwo := some 5
    opponentThreat := some (-0.8) }

/-- A caller-supplied `settings` object: any key may be absent. -/
structure SettingsIn where
  searchDepth : Option ℚ
  candidateCount : Option ℚ
  searchRange : Option ℚ
  boardSize : Option ℚ
  patternWeights : Option PatternWeightsIn
deriving DecidableEq

/-- The constructed `this.settings` object. -/
structure SettingsEff where
  searchDepth : ℚ
  candidateCount : ℚ
  searchRange : ℚ
  boardSize : ℚ
  patternWeights : PatternWeightsIn
deriving DecidableEq

/-- JS `x || d` for a possibly-absent numeric field: absent (or the
falsy number 0) gives the default, any other number — negative
included — is kept. -/
def jsOr (o : Option ℚ) (d : ℚ) : ℚ :=
  match o with
  | none => d
  | some v => if v = 0 then d else v

/-- The `GomokuAI` constructor's settings computation: first the object
literal with `settings.searchDepth || 6` etc. and the default weight
table, then the trailing `...settings` spread, which overwrites every
field the caller's object actually carries — including falsy, negative
and partial values. -/
def mkSettings (s : SettingsIn) : SettingsEff :=
  let base : SettingsEff :=
    { searchDepth := jsOr s.searchDepth 6
      candidateCount := jsOr s.candidateCount 10
      searchRange := jsOr s.searchRange 2
      boardSize := 15
      patternWeights := defaultPatternWeightsIn }
  { searchDepth := s.searchDepth.getD base.searchDepth
    candidateCount := s.candidateCount.getD base.candidateCount
    searchRange := s.searchRange.getD base.searchRange
    boardSize := s.boardSize.getD base.boardSize
    patternWeights := s.patternWeights.getD base.patternWeights }

/-! ## Claim-side notions

Definitions below formalise the vocabulary the claims are stated in;
they are independent of the engine's own code paths. -/

/-- "5 or more consecutive stones along one of the four axes anywhere
on the board": an on-board run of five `player` cells starting at some
grid cell in one of the four scan directions. -/
def hasFiveRun (b : Board) (p : ℕ) : Prop :=
  ∃ r : ℕ, r < 15 ∧ ∃ c : ℕ, c < 15 ∧ ∃ d ∈ directions,
    ∀ k : ℕ, k < 5 →
      inB ((r : ℤ) + (k : ℤ) * d.1) ((c : ℤ) + (k : ℤ) * d.2) ∧
        cellZ b ((r : ℤ) + (k : ℤ) * d.1) ((c : ℤ) + (k : ℤ) * d.2) = p

instance (b : Board) (p : ℕ) : Decidable (hasFiveRun b p) := by
  unfold hasFiveRun inB; infer_instance

/-- Chebyshev distance between two cells. -/
def chebDist (x y : ℕ × ℕ) : ℕ :=
  max (max (x.1 - y.1) (y.1 - x.1)) (max (x.2 - y.2) (y.2 - x.2))

/-- The claim C5 semantics: the same per-rule while loop, but the
neutralised working copy carries across the whole ordered rule list
("consumption carries across the whole ordered rule list, not just
within one rule"). Returns the score of one rule together with the
working string it leaves behind. -/
def ruleScoreConsumeFuel (alts : List (List ℕ)) (weight : ℚ) :
    ℕ → List ℕ → ℚ × List ℕ
  | 0, s => (0, s)
  | fuel + 1, s =>
    match findFirstMatch alts s with
    | none => (0, s)
    | some (pre, m, suf) =>
      let r := ruleScoreConsumeFuel alts weight fuel (pre ++ neutralize m ++ suf)
      (weight + r.1, r.2)

/-- One rule under the claim C5 semantics, with the same fuel policy as
`ruleScore`. -/
def ruleScoreConsume (alts : List (List ℕ)) (weight : ℚ) (s : List ℕ) :
    ℚ × List ℕ :=
  ruleScoreConsumeFuel alts weight (onesCount s + 1) s

/-- The claim C5 semantics for a whole line: fold the rule list while
threading the consumed working copy from each rule into the next. -/
def calculateLineScoreConsumeAcross (w : PatternWeights) (lineStr : List ℕ) : ℚ :=
  (patternAlts.foldl
    (fun acc pr =>
      let r := ruleScoreConsume pr.1 (pr.2 w) acc.2
      (acc.1 + r.1, r.2))
    ((0 : ℚ), lineStr)).1

/-- The own-line half of `quickEvaluatePosition`: the four line scores
for `player` through the temporarily placed stone. -/
def quickEvalOwn (w : PatternWeights) (b : Board) (row col player : ℕ) : ℚ :=
  (directions.map (fun d =>
    calculateLineScore w (getLineString (setCell b row col player) row col d.1 d.2 player false))).sum

/-- The blocking half of `quickEvaluatePosition`: the four line scores
for the opponent with the centre cell forced to the opponent's stone. -/
def quickEvalOpp (w : PatternWeights) (b : Board) (row col player : ℕ) : ℚ :=
  (directions.map (fun d =>
    calculateLineScore w (getLineString (setCell b row col player) row col d.1 d.2 (3 - player) true))).sum

/-! ## Concrete boards used by witnesses and counterexamples -/

/-- A single black stone at (7,7). -/
def board77 : Board := setCell emptyBoard 7 7 1

/-- A single black stone at (0,0). -/
def board00 : Board := setCell emptyBoard 0 0 1

/-- Black five-in-a-row on row 0, white five-in-a-row on row 2 —
unreachable in play, but a board, so inside the claims' quantifiers. -/
def boardDoubleFive : Board :=
  fun r c => if r = 0 ∧ c < 5 then 1 else if r = 2 ∧ c < 5 then 2 else 0

/-- Black stones at (0,0), (0,2), (0,3), (0,4): row 0 encodes as
`2101110000000002`, which matches both the jump-four `10111` and — from
the untouched original — the open three `01110`. -/
def boardJumpFour : Board :=
  fun r c => if r = 0 ∧ (c = 0 ∨ c = 2 ∨ c = 3 ∨ c = 4) then 1 else 0

/-- Black open four at (7,3)–(7,6): the spec's pattern-precedence
example. -/
def boardOpenFour : Board :=
  fun r c => if r = 7 ∧ (3 ≤ c ∧ c ≤ 6) then 1 else 0

/-- The 24 empty cells of `board77` within Chebyshev distance 2 of
(7,7), in row-major order — the C8 claim's candidate set. -/
def nearCells77 : List (ℕ × ℕ) :=
  gridCells.filter (fun mv => (board77 mv.1 mv.2 == 0) && decide (chebDist mv (7, 7) ≤ 2))

/-- Settings used by the C9 counterexample: `searchDepth = 1`,
`candidateCount = 1`, `searchRange = 2`, default weights. -/
def settingsDepthOne : EngineSettings := ⟨1, 1, 2, defaultPatternWeights⟩

/-! ## Supporting lemmas -/

section SupportLemmas

theorem foldl_add_map {α : Type} (f : α → ℚ) (l : List α) (init : ℚ) :
    l.foldl (fun acc x => acc + f x) init = init + (l.map f).sum := by
  induction l generalizing init with
  | nil => simp
  | cons x xs ih => simp [ih, add_assoc]

/-- Everything `generateCandidateMoves` returns was an empty cell of
the board it scanned. -/
theorem mem_gen_empty_cell {S : EngineSettings} {b : Board} {p : ℕ}
    {mv : ℕ × ℕ} (h : mv ∈ generateCandidateMoves S b p) : b mv.1 mv.2 = 0 := by
  unfold generateCandidateMoves at h
  have h1 : mv ∈ (gridCells.filter (fun mv =>
      b mv.1 mv.2 == 0 && hasNearbyPieces b mv.1 mv.2 S.searchRange)) := by
    have h2 := List.mem_of_mem_take h
    exact List.mem_mergeSort.mp h2
  have h3 := (List.mem_filter.mp h1).2
  have h4 := (Bool.and_eq_true _ _).mp h3
  simpa using h4.1

theorem hasNearbyPieces_emptyBoard (row col range : ℕ) :
    hasNearbyPieces emptyBoard row col range = false := by
  simp [hasNearbyPieces, emptyBoard]

/-- The candidate loop leaves the board exactly as it found it: the
recursive call restores its board (hypothesis `hrec`), and clearing the
freshly placed stone restores the cell's original emptiness — on the
early `alpha >= beta` break exactly as on loop exit. -/
theorem abGo_board (recur : Board → ExtQ → ExtQ → ABOut)
    (hrec : ∀ b' a' b2, (recur b' a' b2).board = b') (p : ℕ) (beta : ExtQ) :
    ∀ (L : List (ℕ × ℕ)) (b : Board) (m a : ExtQ),
      (∀ mv ∈ L, b mv.1 mv.2 = 0) → (abGo recur p beta L b m a).board = b := by
  intro L
  induction L with
  | nil => intro b m a _; rfl
  | cons mv rest ih =>
    intro b m a h
    obtain ⟨r, c⟩ := mv
    have hcell : b r c = 0 := h (r, c) (List.mem_cons_self _ _)
    have hrest : ∀ mv ∈ rest, b mv.1 mv.2 = 0 :=
      fun mv hm => h mv (List.mem_cons_of_mem _ hm)
    simp only [abGo, hrec, setCell_setCell_zero hcell]
    split
    · rfl
    · exact ih b _ _ hrest

/-- Same statement for the root loop of `findBestMove`. -/
theorem fbGo_board (recur : Board → ExtQ → ExtQ → ABOut)
    (hrec : ∀ b' a' b2, (recur b' a' b2).board = b') (p : ℕ) :
    ∀ (L : List (ℕ × ℕ)) (b : Board) (bm : Option (ℕ × ℕ)) (bs a : ExtQ),
      (∀ mv ∈ L, b mv.1 mv.2 = 0) → (fbGo recur p L b bm bs a).board = b := by
  intro L
  induction L with
  | nil => intro b bm bs a _; rfl
  | cons mv rest ih =>
    intro b bm bs a h
    obtain ⟨r, c⟩ := mv
    have hcell : b r c = 0 := h (r, c) (List.mem_cons_self _ _)
    have hrest : ∀ mv ∈ rest, b mv.1 mv.2 = 0 :=
      fun mv hm => h mv (List.mem_cons_of_mem _ hm)
    simp only [fbGo, hrec, setCell_setCell_zero hcell]
    split
    · exact ih b _ _ _ hrest
    · exact ih b _ _ _ hrest

/-- `alphaBetaSearch` always hands back the board it was given. -/
theorem alphaBetaS_board (S : EngineSettings) :
    ∀ (d : ℕ) (b : Board) (alpha beta : ExtQ) (p : ℕ),
      (alphaBetaS S d b alpha beta p).board = b := by
  intro d
  induction d with
  | zero => intro b alpha beta p; rfl
  | succ d ih =>
    intro b alpha beta p
    simp only [alphaBetaS]
    split
    · rfl
    · split
      · rfl
      · split
        · rfl
        · exact abGo_board _ (fun b' a' b2 => ih b' a' b2 (3 - p)) p beta
            (generateCandidateMoves S b p) b .ninf alpha
            (fun mv hm => mem_gen_empty_cell hm)

/-- `findBestMove` always hands back the board it was given. -/
theorem findBestMoveS_board (S : EngineSettings) (st : EngineState)
    (b : Board) (p : ℕ) : (findBestMoveS S st b p).2.1 = b := by
  simp only [findBestMoveS]
  split
  · rfl
  · exact fbGo_board _ (fun b' a' b2 => alphaBetaS_board S (S.searchDepth - 1) b' a' b2 (3 - p))
      p (generateCandidateMoves S b p) b none .ninf .ninf
      (fun mv hm => mem_gen_empty_cell hm)

/-- Each `alphaBetaSearch` call increments `searchNodes` at least once
(its own entry increment). -/
theorem alphaBetaS_nodes_pos (S : EngineSettings) :
    ∀ (d : ℕ) (b : Board) (alpha beta : ExtQ) (p : ℕ),
      1 ≤ (alphaBetaS S d b alpha beta p).nodes := by
  intro d
  cases d with
  | zero => intro b alpha beta p; exact le_refl 1
  | succ d =>
    intro b alpha beta p
    simp only [alphaBetaS]
    split
    · exact le_refl 1
    · split
      · exact le_refl 1
      · split
        · exact le_refl 1
        · exact Nat.le_add_left 1 _

/-- The root loop performs at least one node increment per candidate. -/
theorem fbGo_nodes_ge (recur : Board → ExtQ → ExtQ → ABOut)
    (hrec : ∀ b' a' b2, 1 ≤ (recur b' a' b2).nodes) (p : ℕ) :
    ∀ (L : List (ℕ × ℕ)) (b : Board) (bm : Option (ℕ × ℕ)) (bs a : ExtQ),
      L.length ≤ (fbGo recur p L b bm bs a).nodes := by
  intro L
  induction L with
  | nil => intro b bm bs a; exact Nat.zero_le _
  | cons mv rest ih =>
    intro b bm bs a
    obtain ⟨r, c⟩ := mv
    simp only [fbGo, List.length_cons]
    split
    · have h1 := hrec (setCell b r c p) ExtQ.pinf.neg a.neg
      have h2 := ih (setCell (recur (setCell b r c p) ExtQ.pinf.neg a.neg).board r c 0)
        (some (r, c)) (recur (setCell b r c p) ExtQ.pinf.neg a.neg).score.neg
        (recur (setCell b r c p) ExtQ.pinf.neg a.neg).score.neg
      dsimp only
      omega
    · have h1 := hrec (setCell b r c p) ExtQ.pinf.neg a.neg
      have h2 := ih (setCell (recur (setCell b r c p) ExtQ.pinf.neg a.neg).board r c 0) bm bs a
      dsimp only
      omega

/-- When every subsearch counts exactly one node (as at depth 0), the
root loop counts exactly one node per candidate. -/
theorem fbGo_nodes_exact (recur : Board → ExtQ → ExtQ → ABOut)
    (hrec : ∀ b' a' b2, (recur b' a' b2).nodes = 1) (p : ℕ) :
    ∀ (L : List (ℕ × ℕ)) (b : Board) (bm : Option (ℕ × ℕ)) (bs a : ExtQ),
      (fbGo recur p L b bm bs a).nodes = L.length := by
  intro L
  induction L with
  | nil => intro b bm bs a; rfl
  | cons mv rest ih =>
    intro b bm bs a
    obtain ⟨r, c⟩ := mv
    simp only [fbGo, List.length_cons]
    split
    · dsimp only; rw [hrec, ih]; omega
    · dsimp only; rw [hrec, ih]; omega

theorem gen_emptyBoard (S : EngineSettings) (p : ℕ) :
    generateCandidateMoves S emptyBoard p = [] := by
  unfold generateCandidateMoves
  have : gridCells.filter (fun mv =>
      emptyBoard mv.1 mv.2 == 0 && hasNearbyPieces emptyBoard mv.1 mv.2 S.searchRange) = [] := by
    simp [hasNearbyPieces_emptyBoard]
  simp [this]

end SupportLemmas

/-! ## Claim theorems -/

unseal Rat.add Rat.mul Rat.sub Rat.inv Rat.ofScientific

set_option maxRecDepth 20000

/-- C10: with the engine's built-in default `patternWeights`,
`opponentThreat` is `-0.8 = -(4/5)`, so for every board and player
`evaluateBoard` equals the player's aggregated pattern score *plus*
`0.8` times the opponent's aggregated pattern score: the subtraction of
the opponent score scaled by a negative coefficient makes the returned
evaluation increase, not decrease, as the opponent's score grows. -/
theorem C10_default_threat_adds_opponent_score :
    defaultPatternWeights.opponentThreat = -(4/5) ∧
    ∀ (b : Board) (p : ℕ),
      evaluateBoard defaultPatternWeights b p =
        evaluatePatternsForPlayer defaultPatternWeights b p
          + (4/5) * evaluatePatternsForPlayer defaultPatternWeights b (3 - p) := by
  constructor
  · norm_num [defaultPatternWeights]
  · intro b p
    unfold evaluateBoard
    have h : defaultPatternWeights.opponentThreat = -(4/5) := by
      norm_num [defaultPatternWeights]
    rw [h]
    ring

/-- C3 counterexample: the claim says a zero `searchDepth` is replaced
by the default 6 and a `patternWeights` map missing a recognized key
gets that key's default; in fact the trailing `...settings` spread
keeps the caller's `0` verbatim and replaces the whole weight table,
leaving `opponentThreat` absent. -/
theorem C3_counterexample :
    (mkSettings ⟨some 0, none, none, none, none⟩).searchDepth = 0 ∧
    (mkSettings ⟨some 0, none, none, none, none⟩).searchDepth ≠ 6 ∧
    (mkSettings
        ⟨none, none, none, none,
          some ⟨some 1, none, none, none, none, none, none, none⟩⟩).patternWeights.opponentThreat
      = none := by
  refine ⟨rfl, ?_, rfl⟩
  intro h
  have : (0 : ℚ) = 6 := h
  norm_num at this

/-- C3 amended: construction is total (never fails); a field absent
from the caller's Settings gets the documented default — `searchDepth`
6, `candidateCount` 10, `searchRange` 2, `boardSize` 15, and the full
default `patternWeights` table including `opponentThreat` — while a
field the caller's object carries is kept verbatim, even when it is
zero, negative, or a weight table missing recognized keys: the trailing
`...settings` spread overwrites the `||`-defaulted fields, so no
per-field validity substitution happens for present fields. -/
theorem C3_amended_defaults_only_for_absent_fields (s : SettingsIn) :
    mkSettings s =
      { searchDepth := s.searchDepth.getD 6
        candidateCount := s.candidateCount.getD 10
        searchRange := s.searchRange.getD 2
        boardSize := s.boardSize.getD 15
        patternWeights := s.patternWeights.getD defaultPatternWeightsIn } := by
  obtain ⟨sd, cc, sr, bs, pw⟩ := s
  cases sd <;> cases cc <;> cases sr <;> cases bs <;> cases pw <;>
    simp [mkSettings, jsOr]

/-- C7: `findBestMove` returns null exactly when the root candidate set
is empty; in particular on the completely empty 15×15 board — where no
empty cell has an occupied cell within any `searchRange` — it returns
null for every settings value (any `searchDepth`), player, and prior
counter state. -/
theorem C7_null_iff_empty_candidates :
    (∀ (S : EngineSettings) (st : EngineState) (b : Board) (p : ℕ),
      (findBestMoveS S st b p).1 = none ↔ generateCandidateMoves S b p = []) ∧
    (∀ (S : EngineSettings) (st : EngineState) (p : ℕ),
      (findBestMoveS S st emptyBoard p).1 = none) := by
  have key : ∀ (S : EngineSettings) (st : EngineState) (b : Board) (p : ℕ),
      (findBestMoveS S st b p).1 = none ↔ generateCandidateMoves S b p = [] := by
    intro S st b p
    unfold findBestMoveS
    rcases h : generateCandidateMoves S b p with _ | ⟨mv, rest⟩
    · simp [h]
    · simp [h]
  refine ⟨key, fun S st p => ?_⟩
  rw [key S st emptyBoard p]
  exact gen_emptyBoard S p

/-- C4 counterexample: with a lone black stone at (7,7), evaluating
(7,8) for black yields the own-line sum taken once, not doubled — the
returned value differs from the claim's `2·own + 0.8·opp` formula. -/
theorem C4_counterexample :
    (quickEvaluatePositionS defaultPatternWeights board77 7 8 1).1 ≠
      2 * quickEvalOwn defaultPatternWeights board77 7 8 1
        + (4/5) * quickEvalOpp defaultPatternWeights board77 7 8 1 := by
  decide

/-- C4 amended: `quickEvaluatePosition` temporarily places the player's
stone, sums the pattern scores of the four lines through the cell
**once** (no doubling), evaluates the same four lines as if the
opponent occupied the cell and adds that sum scaled by the fixed
damping factor `0.8 = 4/5`, and — when the cell was empty — restores
the cell to empty. -/
theorem C4_amended_quickEval_no_doubling (w : PatternWeights) (b : Board)
    (row col p : ℕ) :
    (quickEvaluatePositionS w b row col p).1 =
      quickEvalOwn w b row col p + (4/5) * quickEvalOpp w b row col p ∧
    (b row col = 0 → (quickEvaluatePositionS w b row col p).2 = b) := by
  constructor
  · show (quickEvaluatePositionS w b row col p).1 = _
    unfold quickEvaluatePositionS quickEvalOwn quickEvalOpp
    simp only [directions, List.map_cons, List.map_nil, List.sum_cons, List.sum_nil]
    norm_num
    ring
  · intro h
    show setCell (setCell b row col p) row col 0 = b
    exact setCell_setCell_zero h p

/-- C4 witness: the amended theorem applied at the empty board, cell
(0,0), player 1; the cell is empty, so the board is restored. -/
theorem C4_amended_witness :
    emptyBoard 0 0 = 0 ∧
    (quickEvaluatePositionS defaultPatternWeights emptyBoard 0 0 1).2 = emptyBoard :=
  ⟨rfl, (C4_amended_quickEval_no_doubling defaultPatternWeights emptyBoard 0 0 1).2 rfl⟩

/-- C5 counterexample: the row `2101110000000002` (stones at (0,0),
(0,2)-(0,4)) scores 800 under the engine — the jump four `10111`
(rule `deadFour`, 400) *and*, because the working copy resets to the
original string for the next rule, the open three `01110` (rule
`liveThree`, 400) built from the same stones; under the claim's
carry-across-rules consumption it would score only 400. -/
theorem C5_counterexample :
    calculateLineScore defaultPatternWeights (getRowString boardJumpFour 0 1) = 800 ∧
    calculateLineScoreConsumeAcross defaultPatternWeights (getRowString boardJumpFour 0 1) = 400 ∧
    calculateLineScore defaultPatternWeights (getRowString boardJumpFour 0 1) ≠
      calculateLineScoreConsumeAcross defaultPatternWeights (getRowString boardJumpFour 0 1) := by
  refine ⟨?_, ?_, ?_⟩ <;> decide

/-- C5 amended: consumption is per rule, not across the rule list —
each rule scores the *original* encoded line independently (the source
resets `tempStr = lineStr` for every rule), so one physical shape can
be credited by several rules; within a rule, neutralisation does
prevent re-matching, and for the spec's example a lone open four
`011110` still contributes exactly the `liveFour` weight because no
weaker rule's pattern occurs in the original row at all. -/
theorem C5_amended_per_rule_consumption :
    (∀ (w : PatternWeights) (s : List ℕ),
      calculateLineScore w s =
        (patternAlts.map (fun pr => ruleScore pr.1 (pr.2 w) s)).sum) ∧
    calculateLineScore defaultPatternWeights (getRowString boardOpenFour 7 1) = 5000 := by
  constructor
  · intro w s
    unfold calculateLineScore
    rw [foldl_add_map (fun pr => ruleScore pr.1 (pr.2 w) s) patternAlts 0]
    simp
  · decide

/-- C1: for every board, player and engine call the board after the
call is cell-for-cell the board passed in — `quickEvaluatePosition`
(called on an empty cell, as the candidate generator does) undoes its
temporary stone, and `alphaBetaSearch`/`findBestMove` undo every
simulated move on every exit path, including the early `alpha >= beta`
break (the source clears the cell *before* testing the cutoff).
`evaluateBoard` performs no writes at all in the source and is embedded
as a pure function of the board. The equalities are equalities of the
board functions, hence cell-by-cell. -/
theorem C1_board_restored_after_every_call :
    (∀ (w : PatternWeights) (b : Board) (row col p : ℕ), b row col = 0 →
      (quickEvaluatePositionS w b row col p).2 = b) ∧
    (∀ (S : EngineSettings) (d : ℕ) (b : Board) (alpha beta : ExtQ) (p : ℕ),
      (alphaBetaS S d b alpha beta p).board = b) ∧
    (∀ (S : EngineSettings) (st : EngineState) (b : Board) (p : ℕ),
      (findBestMoveS S st b p).2.1 = b) := by
  refine ⟨?_, ?_, ?_⟩
  · intro w b row col p h
    show setCell (setCell b row col p) row col 0 = b
    exact setCell_setCell_zero h p
  · intro S d b alpha beta p
    exact alphaBetaS_board S d b alpha beta p
  · intro S st b p
    exact findBestMoveS_board S st b p

/-- C1 witness: the board with one stone at (7,7) and the empty cell
(5,5) — the quick evaluation there returns the board unchanged. -/
theorem C1_witness :
    board77 5 5 = 0 ∧
    (quickEvaluatePositionS defaultPatternWeights board77 5 5 2).2 = board77 :=
  ⟨rfl, C1_board_restored_after_every_call.1 defaultPatternWeights board77 5 5 2 rfl⟩

/-- C9 counterexample: one stone at (0,0), `searchDepth = 1`,
`candidateCount = 1`: the root has `k = 1` candidate, and after the
call `searchNodes` is exactly 1 — one increment per `alphaBetaSearch`
invocation with nothing for the root's own conceptual node — refuting
`searchNodes ≥ k + 1`. (The non-zero prior counter state 37/5 also
shows there is no cross-call accumulation.) -/
theorem C9_counterexample :
    (generateCandidateMoves settingsDepthOne board00 2).length = 1 ∧
    ((findBestMoveS settingsDepthOne ⟨37, 5⟩ board00 2).2.2).searchNodes = 1 ∧
    ¬ ((generateCandidateMoves settingsDepthOne board00 2).length + 1 ≤
        ((findBestMoveS settingsDepthOne ⟨37, 5⟩ board00 2).2.2).searchNodes) := by
  have hmoves : (gridCells.filter (fun mv =>
      board00 mv.1 mv.2 == 0 &&
        hasNearbyPieces board00 mv.1 mv.2 settingsDepthOne.searchRange)).length = 8 := by
    decide
  have hlen : (generateCandidateMoves settingsDepthOne board00 2).length = 1 := by
    unfold generateCandidateMoves
    dsimp only
    rw [List.length_take, List.length_mergeSort, hmoves]
    decide
  have hnodes :
      ((findBestMoveS settingsDepthOne ⟨37, 5⟩ board00 2).2.2).searchNodes = 1 := by
    unfold findBestMoveS
    dsimp only
    split
    · next hempty =>
      rw [List.isEmpty_iff] at hempty
      rw [hempty] at hlen
      simp at hlen
    · dsimp only
      rw [fbGo_nodes_exact _ (fun b' a' b2 => rfl) 2]
      exact hlen
  exact ⟨hlen, hnodes, by rw [hlen, hnodes]; omega⟩

/-- C9 amended: `searchNodes` and `pruningCount` are reset at the start
of every `findBestMove` call — the result is independent of the prior
counter state, with no cross-call accumulation — and afterwards
`searchNodes` holds one increment per `alphaBetaSearch` invocation in
the search tree; the root loop itself is *not* counted, so for a root
with `k` candidates the counter is at least `k` (not `k + 1`). -/
theorem C9_amended_counters_reset_and_at_least_k :
    ∀ (S : EngineSettings) (st st' : EngineState) (b : Board) (p : ℕ),
      findBestMoveS S st b p = findBestMoveS S st' b p ∧
      (generateCandidateMoves S b p).length ≤
        ((findBestMoveS S st b p).2.2).searchNodes := by
  intro S st st' b p
  refine ⟨rfl, ?_⟩
  unfold findBestMoveS
  dsimp only
  split
  · next h =>
    rw [List.isEmpty_iff] at h
    rw [h]
    simp
  · dsimp only
    exact fbGo_nodes_ge _
      (fun b' a' b2 => alphaBetaS_nodes_pos S (S.searchDepth - 1) b' a' b2 (3 - p)) p
      (generateCandidateMoves S b p) b none .ninf .ninf

/-- C8: on the board with one stone at (7,7) and `searchRange = 2`, the
scanned candidate list is exactly the 24 empty cells within Chebyshev
distance 2 of (7,7) in row-major order; the returned candidates are
that list sorted stably by descending `quickEvaluatePosition` score and
truncated to the first `candidateCount` — for any weights, any
`candidateCount`, any `searchDepth`, and any player. -/
theorem C8_candidates_around_single_stone (w : PatternWeights) (sd cc p : ℕ) :
    generateCandidateMoves ⟨sd, cc, 2, w⟩ board77 p =
      (nearCells77.mergeSort (fun x y =>
        decide ((quickEvaluatePositionS w board77 y.1 y.2 p).1 ≤
          (quickEvaluatePositionS w board77 x.1 x.2 p).1))).take cc ∧
    nearCells77.length = 24 ∧
    (∀ mv : ℕ × ℕ, mv ∈ nearCells77 ↔
      (mv.1 < 15 ∧ mv.2 < 15 ∧ board77 mv.1 mv.2 = 0 ∧ chebDist mv (7, 7) ≤ 2)) := by
  refine ⟨?_, by decide, ?_⟩
  · have hf : gridCells.filter (fun mv =>
        board77 mv.1 mv.2 == 0 && hasNearbyPieces board77 mv.1 mv.2 2) = nearCells77 := by
      decide
    unfold generateCandidateMoves
    dsimp only
    rw [hf]
  · intro mv
    have hgrid : mv ∈ gridCells ↔ mv.1 < 15 ∧ mv.2 < 15 := by
      obtain ⟨r, c⟩ := mv
      simp [gridCells, List.mem_flatMap, List.mem_map, List.mem_range]
    unfold nearCells77
    rw [List.mem_filter, hgrid]
    simp [and_assoc]

/-- The forward-scanning loop counts at least `m` iff the next `m`
cells in the scan direction are on the board and hold the player's
stones. -/
theorem countFrom_ge_iff (b : Board) (p : ℕ) (dx dy : ℤ) :
    ∀ (m fuel : ℕ) (r c : ℤ), m ≤ fuel →
      (m ≤ countFrom b p dx dy fuel r c ↔
        ∀ k : ℕ, k < m → inB (r + (k : ℤ) * dx) (c + (k : ℤ) * dy) ∧
          cellZ b (r + (k : ℤ) * dx) (c + (k : ℤ) * dy) = p) := by
  intro m
  induction m with
  | zero => intro fuel r c _; simp
  | succ m ih =>
    intro fuel r c hm
    cases fuel with
    | zero => exact absurd hm (by omega)
    | succ f =>
      have hmf : m ≤ f := by omega
      unfold countFrom
      by_cases h : inB r c ∧ cellZ b r c = p
      · rw [if_pos h]
        constructor
        · intro hle k hk
          cases k with
          | zero => simpa using h
          | succ j =>
            have h2 : m ≤ countFrom b p dx dy f (r + dx) (c + dy) := by omega
            have h3 := (ih f (r + dx) (c + dy) hmf).mp h2 j (by omega)
            have e1 : r + dx + (j : ℤ) * dx = r + ((j + 1 : ℕ) : ℤ) * dx := by
              push_cast; ring
            have e2 : c + dy + (j : ℤ) * dy = c + ((j + 1 : ℕ) : ℤ) * dy := by
              push_cast; ring
            rw [e1, e2] at h3
            exact h3
        · intro hall
          have hshift : ∀ k : ℕ, k < m →
              inB (r + dx + (k : ℤ) * dx) (c + dy + (k : ℤ) * dy) ∧
                cellZ b (r + dx + (k : ℤ) * dx) (c + dy + (k : ℤ) * dy) = p := by
            intro k hk
            have h4 := hall (k + 1) (by omega)
            have e1 : r + ((k + 1 : ℕ) : ℤ) * dx = r + dx + (k : ℤ) * dx := by
              push_cast; ring
            have e2 : c + ((k + 1 : ℕ) : ℤ) * dy = c + dy + (k : ℤ) * dy := by
              push_cast; ring
            rw [e1, e2] at h4
            exact h4
          have := (ih f (r + dx) (c + dy) hmf).mpr hshift
          omega
      · rw [if_neg h]
        constructor
        · intro hle; exact absurd hle (by omega)
        · intro hall
          exfalso
          exact h (by simpa using hall 0 (by omega))

/-- The code's stone-by-stone forward scan finds a five-run exactly
when the claim's "5 or more consecutive stones along one of the four
axes" holds: any maximal run's first stone is scanned too. -/
theorem hasFiveInARow_iff_hasFiveRun (b : Board) (p : ℕ) :
    hasFiveInARow b p = true ↔ hasFiveRun b p := by
  unfold hasFiveInARow hasFiveRun
  simp only [List.any_eq_true, List.mem_range, Bool.and_eq_true, beq_iff_eq,
    decide_eq_true_eq]
  constructor
  · rintro ⟨row, hrow, col, hcol, hcell, d, hd, hcount⟩
    refine ⟨row, hrow, col, hcol, d, hd, ?_⟩
    intro k hk
    have h4 : 4 ≤ countFrom b p d.1 d.2 15 ((row : ℤ) + d.1) ((col : ℤ) + d.2) := by
      omega
    have hc := (countFrom_ge_iff b p d.1 d.2 4 15 _ _ (by omega)).mp h4
    cases k with
    | zero =>
      constructor
      · simp only [Nat.cast_zero, zero_mul, add_zero]
        unfold inB
        omega
      · simpa [cellZ] using hcell
    | succ j =>
      have h5 := hc j (by omega)
      have e1 : (row : ℤ) + d.1 + (j : ℤ) * d.1 = (row : ℤ) + ((j + 1 : ℕ) : ℤ) * d.1 := by
        push_cast; ring
      have e2 : (col : ℤ) + d.2 + (j : ℤ) * d.2 = (col : ℤ) + ((j + 1 : ℕ) : ℤ) * d.2 := by
        push_cast; ring
      rw [e1, e2] at h5
      exact h5
  · rintro ⟨row, hrow, col, hcol, d, hd, hall⟩
    have hcell : b row col = p := by
      have h0 := (hall 0 (by omega)).2
      simpa [cellZ] using h0
    refine ⟨row, hrow, col, hcol, hcell, d, hd, ?_⟩
    have hshift : ∀ k : ℕ, k < 4 →
        inB ((row : ℤ) + d.1 + (k : ℤ) * d.1) ((col : ℤ) + d.2 + (k : ℤ) * d.2) ∧
          cellZ b ((row : ℤ) + d.1 + (k : ℤ) * d.1) ((col : ℤ) + d.2 + (k : ℤ) * d.2) = p := by
      intro k hk
      have h4 := hall (k + 1) (by omega)
      have e1 : (row : ℤ) + ((k + 1 : ℕ) : ℤ) * d.1 = (row : ℤ) + d.1 + (k : ℤ) * d.1 := by
        push_cast; ring
      have e2 : (col : ℤ) + ((k + 1 : ℕ) : ℤ) * d.2 = (col : ℤ) + d.2 + (k : ℤ) * d.2 := by
        push_cast; ring
      rw [e1, e2] at h4
      exact h4
    have := (countFrom_ge_iff b p d.1 d.2 4 15 ((row : ℤ) + d.1) ((col : ℤ) + d.2)
      (by omega)).mpr hshift
    omega

/-- `isBoardFull` is the absence of an empty grid cell. -/
theorem isBoardFull_iff (b : Board) :
    isBoardFull b = true ↔ ∀ r < 15, ∀ c < 15, b r c ≠ 0 := by
  unfold isBoardFull
  simp [List.all_eq_true, List.mem_range]

/-- C6 counterexample: on the (unreachable but representable) board
with a black five on row 0 and a white five on row 2, `checkWinner`
returns 1 — player 2 has 5-in-a-row yet the function does not return
2's identifier, refuting the claim's "exactly when" at player 2. -/
theorem C6_counterexample :
    hasFiveRun boardDoubleFive 2 ∧ checkWinner boardDoubleFive ≠ 2 := by
  decide

/-- C6 amended: `checkWinner` returns 1 exactly when player 1 has ≥ 5
consecutive stones along one of the four axes (player 1 is checked
first, so if both players have five-in-a-row, 1 wins the tie); it
returns 2 exactly when player 2 has such a run and player 1 does not;
with no such run for either player it returns the draw sentinel 0
exactly when the board has no empty cell — both players are checked
before a draw is declared — and the continue sentinel -1 otherwise. -/
theorem C6_amended_checkWinner_characterisation (b : Board) :
    (checkWinner b = 1 ↔ hasFiveRun b 1) ∧
    (checkWinner b = 2 ↔ (hasFiveRun b 2 ∧ ¬ hasFiveRun b 1)) ∧
    (checkWinner b = 0 ↔
      (¬ hasFiveRun b 1 ∧ ¬ hasFiveRun b 2 ∧ ∀ r < 15, ∀ c < 15, b r c ≠ 0)) ∧
    (checkWinner b = -1 ↔
      (¬ hasFiveRun b 1 ∧ ¬ hasFiveRun b 2 ∧ ∃ r < 15, ∃ c < 15, b r c = 0)) := by
  have h1 := hasFiveInARow_iff_hasFiveRun b 1
  have h2 := hasFiveInARow_iff_hasFiveRun b 2
  have h3 := isBoardFull_iff b
  unfold checkWinner
  split_ifs with w1 w2 wf
  · rw [h1] at w1
    refine ⟨by simp [w1], by simp [w1], by simp [w1], by simp [w1]⟩
  · rw [h1] at w1
    rw [h2] at w2
    refine ⟨by simp [w1], by simp [w1, w2], by simp [w1, w2], by simp [w1, w2]⟩
  · rw [h1] at w1
    rw [h2] at w2
    rw [h3] at wf
    refine ⟨by simp [w1], by simp [w1, w2], ?_, ?_⟩
    · constructor
      · intro _; exact ⟨w1, w2, wf⟩
      · intro _; rfl
    · constructor
      · intro h; exact absurd h (by decide)
      · rintro ⟨-, -, r, hr, c, hc, hempty⟩
        exact absurd hempty (wf r hr c hc)
  · rw [h1] at w1
    rw [h2] at w2
    rw [h3] at wf
    push_neg at wf
    obtain ⟨r, hr, c, hc, hempty⟩ := wf
    refine ⟨by simp [w1], by simp [w1, w2], ?_, ?_⟩
    · constructor
      · intro h; exact absurd h (by decide)
      · rintro ⟨-, -, hall⟩
        exact absurd (hall r hr c hc) (by simp [hempty])
    · constructor
      · intro _; exact ⟨w1, w2, r, hr, c, hc, hempty⟩
      · intro _; rfl

/-! ## Alpha-Beta soundness (claim C2)

The classical fail-soft bounds: a pruned search returns a value that
equals the true negamax value whenever that value lies strictly inside
the `(alpha, beta)` window, and otherwise a value on the same side of
the window boundary — which is exactly what the root loop needs to
pick the same move. -/

/-- The exhaustive loop value only grows from its accumulator. -/
theorem nGo_ge (recurN : Board → ExtQ × ℕ) (p : ℕ) :
    ∀ (L : List (ℕ × ℕ)) (b : Board) (m : ExtQ), m ≤ (nGo recurN p L b m).1 := by
  intro L
  induction L with
  | nil => intro b m; exact le_refl m
  | cons mv rest ih =>
    intro b m
    obtain ⟨r, c⟩ := mv
    calc m ≤ max m (recurN (setCell b r c p)).1.neg := le_max_left _ _
    _ ≤ _ := ih b _

/-- The exhaustive loop value is finite once the accumulator is finite
or the list is nonempty with finite children. -/
theorem nGo_fin (recurN : Board → ExtQ × ℕ)
    (hrec : ∀ b', ∃ q, (recurN b').1 = .fin q) (p : ℕ) :
    ∀ (L : List (ℕ × ℕ)) (b : Board) (m : ExtQ),
      (L = [] → ∃ q, m = .fin q) → (m = .ninf ∨ ∃ q, m = .fin q) →
      ∃ q, (nGo recurN p L b m).1 = .fin q := by
  intro L
  induction L with
  | nil => intro b m h0 _; exact h0 rfl
  | cons mv rest ih =>
    intro b m _ hm
    obtain ⟨r, c⟩ := mv
    obtain ⟨q, hq⟩ := hrec (setCell b r c p)
    have hm' : ∃ q', max m (recurN (setCell b r c p)).1.neg = .fin q' := by
      rcases hm with hm | ⟨q', hq'⟩
      · subst hm
        refine ⟨-q, ?_⟩
        rw [max_eq_right (ExtQ.ninf_le _), hq]
        rfl
      · subst hq'
        rcases max_choice (ExtQ.fin q') (recurN (setCell b r c p)).1.neg with h | h
        · exact ⟨q', h⟩
        · refine ⟨-q, ?_⟩
          rw [h, hq]
          rfl
    exact ih b _ (fun _ => hm') (Or.inr hm')

/-- The true (exhaustive) search value is always finite. -/
theorem negamax_fin (S : EngineSettings) :
    ∀ (d : ℕ) (b : Board) (p : ℕ), ∃ q, (negamax S d b p).1 = .fin q := by
  intro d
  induction d with
  | zero => intro b p; exact ⟨evaluateBoard S.weights b p, rfl⟩
  | succ d ih =>
    intro b p
    unfold negamax
    dsimp only
    split
    · exact ⟨_, rfl⟩
    · split
      · exact ⟨_, rfl⟩
      · split
        · exact ⟨0, rfl⟩
        · next hne =>
          have hx := nGo_fin (fun b' => negamax S d b' (3 - p))
            (fun b' => ih b' (3 - p)) p (generateCandidateMoves S b p) b .ninf
            (fun h => absurd h (by
              intro hcontra
              rw [hcontra] at hne
              exact hne rfl))
            (Or.inl rfl)
          exact hx

/-- Fail-soft bounds for the candidate loop: if every recursive call
satisfies the bounds at every valid window, the loop value stays
between `min beta` and `max alpha` of the exhaustive loop value —
through the `alpha >= beta` break as well. -/
theorem abGo_vs_nGo (recurAB : Board → ExtQ → ExtQ → ABOut)
    (recurN : Board → ExtQ × ℕ)
    (hrec : ∀ b' a' b2, a' < b2 →
      (recurAB b' a' b2).score ≤ max a' (recurN b').1 ∧
      min b2 (recurN b').1 ≤ (recurAB b' a' b2).score)
    (hrecB : ∀ b' a' b2, (recurAB b' a' b2).board = b')
    (p : ℕ) (alpha beta : ExtQ) :
    ∀ (L : List (ℕ × ℕ)) (b : Board) (m M a : ExtQ),
      a = max alpha m → a < beta →
      m ≤ max alpha M → min beta M ≤ m →
      (∀ mv ∈ L, b mv.1 mv.2 = 0) →
      (abGo recurAB p beta L b m a).score ≤ max alpha (nGo recurN p L b M).1 ∧
      min beta (nGo recurN p L b M).1 ≤ (abGo recurAB p beta L b m a).score := by
  intro L
  induction L with
  | nil => intro b m M a _ _ hup hlo _; exact ⟨hup, hlo⟩
  | cons mv rest ih =>
    intro b m M a ha hab hup hlo hmem
    obtain ⟨r, c⟩ := mv
    have hcell : b r c = 0 := hmem (r, c) (List.mem_cons_self _ _)
    have hrest : ∀ mv ∈ rest, b mv.1 mv.2 = 0 :=
      fun mv hm => hmem mv (List.mem_cons_of_mem _ hm)
    have halpha_lt : alpha < beta := lt_of_le_of_lt (ha ▸ le_max_left _ _) hab
    -- the child call and its exhaustive value
    set s' := (recurAB (setCell b r c p) beta.neg a.neg).score with hs'
    set v' := (recurN (setCell b r c p)).1 with hv'
    have hwin : beta.neg < a.neg := ExtQ.eneg_lt_eneg.mpr hab
    obtain ⟨hcu, hcl⟩ := hrec (setCell b r c p) beta.neg a.neg hwin
    set s := s'.neg with hs
    set σ := v'.neg with hσ
    have hs_up : s ≤ max a σ := by
      have := ExtQ.eneg_le_eneg.mpr hcl
      rw [ExtQ.eneg_min, ExtQ.neg_neg] at this
      exact this
    have hs_lo : min beta σ ≤ s := by
      have := ExtQ.eneg_le_eneg.mpr hcu
      rw [ExtQ.eneg_max, ExtQ.neg_neg] at this
      exact this
    -- invariants for the next iteration
    have ha' : max a s = max alpha (max m s) := by
      rw [ha, max_assoc]
    have ha_le : a ≤ max alpha M := by
      rw [ha]
      exact max_le (le_max_left _ _) hup
    have hs_up2 : s ≤ max alpha (max M σ) := by
      calc s ≤ max a σ := hs_up
      _ ≤ max (max alpha M) σ := max_le_max_right _ ha_le
      _ = max alpha (max M σ) := max_assoc _ _ _
    have hup' : max m s ≤ max alpha (max M σ) := by
      refine max_le ?_ hs_up2
      calc m ≤ max alpha M := hup
      _ ≤ max alpha (max M σ) := max_le_max_left _ (le_max_left _ _)
    have hlo' : min beta (max M σ) ≤ max m s := by
      rw [min_max_distrib_left]
      exact max_le_max hlo hs_lo
    -- unfold both loops one step
    show (abGo recurAB p beta ((r, c) :: rest) b m a).score ≤
        max alpha (nGo recurN p ((r, c) :: rest) b M).1 ∧
      min beta (nGo recurN p ((r, c) :: rest) b M).1 ≤
        (abGo recurAB p beta ((r, c) :: rest) b m a).score
    simp only [abGo, nGo, hrecB, setCell_setCell_zero hcell]
    split
    · next hcut =>
      -- pruning break: the loop returns max m s while the exhaustive
      -- value continues over the rest
      have hbeta_le : beta ≤ max m s := by
        rw [ha'] at hcut
        rcases max_choice alpha (max m s) with h | h
        · rw [h] at hcut
          exact absurd (halpha_lt.trans_le hcut) (lt_irrefl alpha)
        · rw [h] at hcut
          exact hcut
      have hvf : max M σ ≤ (nGo recurN p rest b (max M σ)).1 := nGo_ge recurN p rest b _
      constructor
      · calc max m s ≤ max alpha (max M σ) := hup'
        _ ≤ max alpha (nGo recurN p rest b (max M σ)).1 := max_le_max_left _ hvf
      · calc min beta (nGo recurN p rest b (max M σ)).1 ≤ beta := min_le_left _ _
        _ ≤ max m s := hbeta_le
    · next hcut =>
      have hab' : max a s < beta := not_le.mp hcut
      have := ih b (max m s) (max M σ) (max a s) ha' hab' hup' hlo' hrest
      exact this

/-- Fail-soft bounds for the full search: `alphaBetaSearch` stays
between `min beta` and `max alpha` of the exhaustive negamax value of
the same depth, board and player. -/
theorem alphaBetaS_vs_negamax (S : EngineSettings) :
    ∀ (d : ℕ) (p : ℕ) (b : Board) (alpha beta : ExtQ),
      alpha < beta →
      (alphaBetaS S d b alpha beta p).score ≤ max alpha (negamax S d b p).1 ∧
      min beta (negamax S d b p).1 ≤ (alphaBetaS S d b alpha beta p).score := by
  intro d
  induction d with
  | zero =>
    intro p b alpha beta _
    exact ⟨le_max_right _ _, min_le_right _ _⟩
  | succ d ih =>
    intro p b alpha beta hab
    unfold alphaBetaS negamax
    dsimp only
    split
    · exact ⟨le_max_right _ _, min_le_right _ _⟩
    · split
      · exact ⟨le_max_right _ _, min_le_right _ _⟩
      · split
        · exact ⟨le_max_right _ _, min_le_right _ _⟩
        · have := abGo_vs_nGo
            (fun b' alpha' beta' => alphaBetaS S d b' alpha' beta' (3 - p))
            (fun b' => negamax S d b' (3 - p))
            (fun b' a' b2 hw => ih (3 - p) b' a' b2 hw)
            (fun b' a' b2 => alphaBetaS_board S d b' a' b2 (3 - p))
            p alpha beta (generateCandidateMoves S b p) b .ninf .ninf alpha
            (max_eq_left (ExtQ.ninf_le alpha)).symm hab
            (ExtQ.ninf_le _) (by rw [min_eq_right (ExtQ.ninf_le beta)])
            (fun mv hm => mem_gen_empty_cell hm)
          exact this

/-- Pruning only removes work: the candidate loop of the pruned search
performs at most as many node increments as the exhaustive loop. -/
theorem abGo_nodes_le (recurAB : Board → ExtQ → ExtQ → ABOut)
    (recurN : Board → ExtQ × ℕ)
    (hnodes : ∀ b' a' b2, (recurAB b' a' b2).nodes ≤ (recurN b').2)
    (hrecB : ∀ b' a' b2, (recurAB b' a' b2).board = b')
    (p : ℕ) (beta : ExtQ) :
    ∀ (L : List (ℕ × ℕ)) (b : Board) (m M a : ExtQ),
      (∀ mv ∈ L, b mv.1 mv.2 = 0) →
      (abGo recurAB p beta L b m a).nodes ≤ (nGo recurN p L b M).2 := by
  intro L
  induction L with
  | nil => intro b m M a _; exact le_refl 0
  | cons mv rest ih =>
    intro b m M a hmem
    obtain ⟨r, c⟩ := mv
    have hcell : b r c = 0 := hmem (r, c) (List.mem_cons_self _ _)
    have hrest : ∀ mv ∈ rest, b mv.1 mv.2 = 0 :=
      fun mv hm => hmem mv (List.mem_cons_of_mem _ hm)
    simp only [abGo, nGo, hrecB, setCell_setCell_zero hcell]
    split
    · have h1 := hnodes (setCell b r c p) beta.neg a.neg
      dsimp only
      omega
    · have h1 := hnodes (setCell b r c p) beta.neg a.neg
      have h2 := ih b (max m (recurAB (setCell b r c p) beta.neg a.neg).score.neg)
        (max M (recurN (setCell b r c p)).1.neg)
        (max a (recurAB (setCell b r c p) beta.neg a.neg).score.neg) hrest
      dsimp only
      omega

/-- Pruning only removes work, full-search version. -/
theorem alphaBetaS_nodes_le_negamax (S : EngineSettings) :
    ∀ (d : ℕ) (p : ℕ) (b : Board) (alpha beta : ExtQ),
      (alphaBetaS S d b alpha beta p).nodes ≤ (negamax S d b p).2 := by
  intro d
  induction d with
  | zero => intro p b alpha beta; exact le_refl 1
  | succ d ih =>
    intro p b alpha beta
    unfold alphaBetaS negamax
    dsimp only
    split
    · exact le_refl 1
    · split
      · exact le_refl 1
      · split
        · exact le_refl 1
        · have := abGo_nodes_le
            (fun b' alpha' beta' => alphaBetaS S d b' alpha' beta' (3 - p))
            (fun b' => negamax S d b' (3 - p))
            (fun b' a' b2 => ih (3 - p) b' a' b2)
            (fun b' a' b2 => alphaBetaS_board S d b' a' b2 (3 - p))
            p beta (generateCandidateMoves S b p) b .ninf .ninf alpha
            (fun mv hm => mem_gen_empty_cell hm)
          dsimp only
          omega

/-- The root loops of the pruned and the exhaustive search pick the
same move and score, and the pruned loop visits at most as many
nodes — the strict `score > bestScore` update, together with the
fail-soft bounds at the root window `(-Infinity, -bestScore)`, makes
the pruned score exact whenever it beats the running best. -/
theorem fbGo_vs_fbGoN (recurAB : Board → ExtQ → ExtQ → ABOut)
    (recurN : Board → ExtQ × ℕ)
    (hrec : ∀ b' a' b2, a' < b2 →
      (recurAB b' a' b2).score ≤ max a' (recurN b').1 ∧
      min b2 (recurN b').1 ≤ (recurAB b' a' b2).score)
    (hrecB : ∀ b' a' b2, (recurAB b' a' b2).board = b')
    (hnodes : ∀ b' a' b2, (recurAB b' a' b2).nodes ≤ (recurN b').2)
    (hfinN : ∀ b', ∃ q, (recurN b').1 = .fin q) (p : ℕ) :
    ∀ (L : List (ℕ × ℕ)) (b : Board) (bm : Option (ℕ × ℕ)) (bs : ExtQ),
      (∀ mv ∈ L, b mv.1 mv.2 = 0) →
      (bs = .ninf ∨ ∃ q, bs = .fin q) →
      (fbGo recurAB p L b bm bs bs).move = (fbGoN recurN p L b bm bs).1 ∧
      (fbGo recurAB p L b bm bs bs).score = (fbGoN recurN p L b bm bs).2.1 ∧
      (fbGo recurAB p L b bm bs bs).nodes ≤ (fbGoN recurN p L b bm bs).2.2 := by
  intro L
  induction L with
  | nil => intro b bm bs _ _; exact ⟨rfl, rfl, le_refl 0⟩
  | cons mv rest ih =>
    intro b bm bs hmem hbs
    obtain ⟨r, c⟩ := mv
    have hcell : b r c = 0 := hmem (r, c) (List.mem_cons_self _ _)
    have hrest : ∀ mv ∈ rest, b mv.1 mv.2 = 0 :=
      fun mv hm => hmem mv (List.mem_cons_of_mem _ hm)
    have hwin : ExtQ.pinf.neg < bs.neg := by
      rcases hbs with h | ⟨q, h⟩ <;> subst h <;> simp [ExtQ.neg]
    obtain ⟨hcu, hcl⟩ := hrec (setCell b r c p) ExtQ.pinf.neg bs.neg hwin
    simp only [fbGo, fbGoN, hrecB, setCell_setCell_zero hcell]
    set s' := (recurAB (setCell b r c p) ExtQ.pinf.neg bs.neg).score with hs'
    set v' := (recurN (setCell b r c p)).1 with hv'
    set s := s'.neg with hs
    set σ := v'.neg with hσ
    have hsigma : s' ≤ v' := by
      have h1 : max ExtQ.pinf.neg v' = v' := max_eq_right (by
        rw [ExtQ.neg_pinf]; exact ExtQ.ninf_le v')
      rw [h1] at hcu
      exact hcu
    have hs_ge : σ ≤ s := ExtQ.eneg_le_eneg.mpr hsigma
    have hs_up : s ≤ max bs σ := by
      have h2 := ExtQ.eneg_le_eneg.mpr hcl
      rw [ExtQ.eneg_min, ExtQ.neg_neg] at h2
      exact h2
    obtain ⟨qv, hqv⟩ := hfinN (setCell b r c p)
    have hσfin : ∃ q, σ = ExtQ.fin q := by
      refine ⟨-qv, ?_⟩
      rw [hσ, hv', hqv]
      rfl
    by_cases hlt : bs < σ
    · have hseq : s = σ :=
        le_antisymm (by rw [max_eq_right hlt.le] at hs_up; exact hs_up) hs_ge
      rw [if_pos (show bs < s by rw [hseq]; exact hlt), if_pos hlt, hseq]
      have hrec2 := ih b (some (r, c)) σ hrest (Or.inr hσfin)
      refine ⟨hrec2.1, hrec2.2.1, ?_⟩
      have h1 := hnodes (setCell b r c p) ExtQ.pinf.neg bs.neg
      have h2 := hrec2.2.2
      dsimp only
      omega
    · have hsle : ¬ bs < s := by
        intro hcon
        rw [max_eq_left (not_lt.mp hlt)] at hs_up
        exact absurd (lt_of_lt_of_le hcon hs_up) (lt_irrefl bs)
      rw [if_neg hsle, if_neg hlt]
      have hrec2 := ih b bm bs hrest hbs
      refine ⟨hrec2.1, hrec2.2.1, ?_⟩
      have h1 := hnodes (setCell b r c p) ExtQ.pinf.neg bs.neg
      have h2 := hrec2.2.2
      dsimp only
      omega

/-- C2: for every board, player, prior counter state and settings, the
move returned by `findBestMove` with Alpha-Beta pruning (the
`alpha >= beta` early break in the recursion) equals the move returned
by an exhaustive negamax search of the same depth over the same
ordered candidate sets — and so does the score; pruning only reduces
`searchNodes` and never changes the chosen move. -/
theorem C2_pruning_never_changes_the_move (S : EngineSettings)
    (st : EngineState) (b : Board) (p : ℕ) :
    ((findBestMoveS S st b p).1.map (fun res => res.move) =
      (findBestMoveExhaustive S b p).map (fun e => e.1)) ∧
    ((findBestMoveS S st b p).1.map (fun res => res.score) =
      (findBestMoveExhaustive S b p).map (fun e => e.2.1)) ∧
    ((findBestMoveS S st b p).2.2.searchNodes ≤
      ((findBestMoveExhaustive S b p).map (fun e => e.2.2)).getD 0) := by
  unfold findBestMoveS findBestMoveExhaustive
  dsimp only
  split
  · exact ⟨rfl, rfl, le_refl 0⟩
  · have key := fbGo_vs_fbGoN
      (fun b' alpha' beta' => alphaBetaS S (S.searchDepth - 1) b' alpha' beta' (3 - p))
      (fun b' => negamax S (S.searchDepth - 1) b' (3 - p))
      (fun b' a' b2 hw => alphaBetaS_vs_negamax S (S.searchDepth - 1) (3 - p) b' a' b2 hw)
      (fun b' a' b2 => alphaBetaS_board S (S.searchDepth - 1) b' a' b2 (3 - p))
      (fun b' a' b2 => alphaBetaS_nodes_le_negamax S (S.searchDepth - 1) (3 - p) b' a' b2)
      (fun b' => negamax_fin S (S.searchDepth - 1) b' (3 - p)) p
      (generateCandidateMoves S b p) b none .ninf
      (fun mv hm => mem_gen_empty_cell hm) (Or.inl rfl)
    dsimp only
    simp only [Option.map_some', Option.getD_some]
    exact ⟨by rw [key.1], by rw [key.2.1], key.2.2⟩

end Gomoku
